import Mathlib

/-!
# Verification of the blog-CMS moderation core

Shallow embedding of the comment/content moderation pipeline of the
blog-CMS repository: authorization gate (`lib/authz`), session store
(`lib/auth`), rate limiter (`lib/rateLimit`), spam filter and comment
sanitizer (`lib/spamFilter`), admin server actions, and the comment API
route handlers.  Strings are modelled as `List Char` in the internal
definitions (`String` at the outer boundaries), machine time stamps as
`Nat` milliseconds, and the database tables as Lean lists.
-/

namespace BlogCMS

/-- Comment moderation status, from the Prisma `CommentStatus` enum
(`PENDING / APPROVED / REJECTED / SPAM`). -/
inductive CommentStatus where
  | PENDING
  | APPROVED
  | REJECTED
  | SPAM
deriving DecidableEq, Repr

/-- A `Comment` row: the fields touched by the moderation operations
(id, owning post, moderation status, derived `approved` flag). -/
structure Comment where
  id : Nat
  postId : Nat
  status : CommentStatus
  approved : Bool
deriving DecidableEq, Repr

/-- A `Post` row: the fields relevant to comment visibility. -/
structure Post where
  id : Nat
  published : Bool
deriving DecidableEq, Repr

/-- The invariant stated by the spec: `Comment.approved` is true if and
only if `Comment.status` equals `APPROVED`. -/
def commentInv (c : Comment) : Prop :=
  c.approved = true ↔ c.status = CommentStatus.APPROVED

instance (c : Comment) : Decidable (commentInv c) := by
  unfold commentInv; infer_instance

/-! ## Authorization gate (`lib/authz`, source `src/unnamed/part_017`)

`ADMIN_EMAIL` comes from the environment, so it is either absent
(`none`) or some string (possibly empty; the code's `!ADMIN_EMAIL`
treats the empty string like an absent value).  The session user email
passed to `isAdmin` is `string | null | undefined`, modelled as
`Option (List Char)` with the empty string also JS-falsy. -/

/-- JS truthiness test for a `string | null | undefined` value:
falsy iff absent or the empty string. -/
def jsFalsy : Option (List Char) → Bool
  | none => true
  | some s => s.isEmpty

/-- ASCII lower-casing, mirroring `String.prototype.toLowerCase` on the
ASCII range. -/
def jsLower (s : List Char) : List Char := s.map Char.toLower

/-- `isAdmin` from `lib/authz`: false when the candidate email is falsy,
false when `ADMIN_EMAIL` is not configured, otherwise a
case-insensitive comparison with the configured admin email. -/
def isAdmin (adminEmail email : Option (List Char)) : Bool :=
  if jsFalsy email then false
  else if jsFalsy adminEmail then false
  else jsLower (email.getD []) = jsLower (adminEmail.getD [])

/-- The user data carried by a session (`session.user`). -/
structure SessionUser where
  userId : Nat
  email : List Char
  name : List Char
deriving DecidableEq, Repr

/-- `requireAdmin` from `lib/authz`: 401 when there is no session, 403
when the session user is not the configured admin, otherwise the user
info. -/
def requireAdmin (adminEmail : Option (List Char)) (session : Option SessionUser) :
    Except Nat SessionUser :=
  match session with
  | none => Except.error 401
  | some u =>
    if isAdmin adminEmail (some u.email) then Except.ok u
    else Except.error 403

/-! ## Session store (`lib/auth.ts` `getSession`)

A `Session` row has a unique token and an expiry timestamp; `getSession`
looks the token up, treats a past-expiry row as absent and deletes it
(`prisma.session.delete({ where: { id } })`). -/

/-- A `Session` row: id, opaque token, owning user, expiry timestamp
(milliseconds). -/
structure SessionRow where
  id : Nat
  token : List Char
  userId : Nat
  expiresAt : Nat
deriving DecidableEq, Repr

/-- `getSession` from `lib/auth.ts`, for a request carrying `token` at
time `now` against the session table `db`.  Returns the found session
(if alive) and the table after the lazy expiry cleanup.  A missing
cookie or unknown token leaves the table unchanged; a row with
`expiresAt < now` is deleted by its id and reported absent. -/
def getSession (now : Nat) (token : Option (List Char)) (db : List SessionRow) :
    Option SessionRow × List SessionRow :=
  match token with
  | none => (none, db)
  | some tok =>
    match db.find? (fun s => s.token = tok) with
    | none => (none, db)
    | some s =>
      if s.expiresAt < now then
        (none, db.filter (fun r => r.id ≠ s.id))
      else
        (some s, db)

/-! ## In-memory rate limiter (`lib/rateLimit`, source `src/src/lib/seo.ts`
part 2, `checkRateLimit` lines 520–597, memory fallback branch)

Timestamps are `Nat` milliseconds.  The per-identifier entry of the
`requestStore` map is a list of admitted request timestamps.  The JS
filter `ts > now - windowMs` is written `now < ts + windowMs` to avoid
truncated natural subtraction (the JS subtraction is over signed
numbers). -/

/-- Result record of `checkRateLimit` (the memory branch). -/
structure RateLimitResult where
  allowed : Bool
  remaining : Nat
  resetAt : Nat
  retryAfterMs : Option Nat
deriving DecidableEq, Repr

/-- `checkRateLimit` (in-memory branch) for one identifier: prune the
stored timestamps to the window, reject when the pruned list has
reached `maxRequests` (leaving the store untouched), otherwise append
`now` and store the pruned list.  `resetAt` mirrors
`Math.ceil((validTimestamps[0] || now) + windowMs)` including the JS
falsiness of the timestamp `0`. -/
def checkRateLimit (windowMs maxRequests now : Nat) (store : List Nat) :
    RateLimitResult × List Nat :=
  let validTimestamps := store.filter (fun t => now < t + windowMs)
  let remaining := maxRequests - validTimestamps.length
  let reset0 := match validTimestamps.head? with
    | some t => if t = 0 then now else t
    | none => now
  let resetAt := reset0 + windowMs
  if maxRequests ≤ validTimestamps.length then
    ({ allowed := false, remaining := 0, resetAt,
       retryAfterMs := some (validTimestamps.head?.getD 0 + windowMs - now) },
     store)
  else
    ({ allowed := true, remaining := remaining - 1, resetAt,
       retryAfterMs := none },
     validTimestamps ++ [now])

/-- One call to the limiter, including the optional periodic
`cleanupExpiredEntries` pass (the Boolean abstracts the
`now - lastCleanup >= CLEANUP_INTERVAL_MS` condition; the cleanup
filter `ts > cutoff` with `cutoff = now - windowMs` is the same window
predicate). -/
def rateLimiterStep (windowMs maxRequests now : Nat) (doCleanup : Bool)
    (store : List Nat) : RateLimitResult × List Nat :=
  let store := if doCleanup then store.filter (fun t => now < t + windowMs) else store
  checkRateLimit windowMs maxRequests now store

/-- Run the limiter over a sequence of calls `(time, doCleanup)` from a
single identifier, returning the final store and the timestamps of the
admitted calls, in order. -/
def runRateLimiter (windowMs maxRequests : Nat) :
    List (Nat × Bool) → List Nat → List Nat × List Nat
  | [], store => (store, [])
  | (now, clean) :: calls, store =>
    let r := rateLimiterStep windowMs maxRequests now clean store
    let rest := runRateLimiter windowMs maxRequests calls r.2
    (rest.1, (if r.1.allowed then [now] else []) ++ rest.2)

/-! ## Spam filter (`lib/spamFilter`, source `src/unnamed/part_018`)

The regex rules of `SPAM_PATTERNS`, `URL_PATTERN` and `EMAIL_PATTERN`
are compiled by hand into executable scanners over `List Char`.  The
case-insensitive (`/i`) patterns are evaluated on lower-cased text with
lower-case literals.  Scores are exact hundredths (`0.6` ↦ `60`),
avoiding floating point; every weight in the source is a multiple of
`0.05`. -/

/-- The JS `\s` class restricted to the ASCII range (space, tab, LF,
VT, FF, CR), which covers every character the regexes here can meet in
the modelled inputs. -/
def isWsChar (c : Char) : Bool :=
  c = ' ' || c = '\t' || c = '\n' || c = '\x0d' || c = '\x0b' || c = '\x0c'

/-- The JS `\w` class: ASCII letters, digits and underscore. -/
def isWordChar (c : Char) : Bool :=
  c.isAlpha || c.isDigit || c = '_'

/-- Drop trailing JS-whitespace (the right half of
`String.prototype.trim`). -/
def dropTrailWs : List Char → List Char
  | [] => []
  | c :: rest =>
    let r := dropTrailWs rest
    if r.isEmpty && isWsChar c then [] else c :: r

/-- `String.prototype.trim`: drop leading and trailing whitespace. -/
def jsTrim (s : List Char) : List Char :=
  dropTrailWs (s.dropWhile isWsChar)

/-- A token of a compiled regex fragment: literal run, alternation of
literals, `\s+`, `\s*`, `\d+`, or an optional single character. -/
inductive Tok where
  | lit (w : List Char)
  | alts (ws : List (List Char))
  | ws1
  | ws0
  | digits
  | opt (c : Char)

/-- Match a token sequence at the start of `s`, requiring a word
boundary (`\b`) after the final token.  `\s+`/`\s*`/`\d+` consume
maximally, which agrees with the regex backtracking semantics here
because in every compiled pattern the following token cannot start
with a whitespace (resp. digit) character; alternations try each
literal and backtrack through the rest of the sequence. -/
def matchToks : List Tok → List Char → Bool
  | [], [] => true
  | [], c :: _ => ! isWordChar c
  | Tok.lit w :: rest, s => w.isPrefixOf s && matchToks rest (s.drop w.length)
  | Tok.alts ws :: rest, s =>
    ws.any (fun w => w.isPrefixOf s && matchToks rest (s.drop w.length))
  | Tok.ws1 :: rest, s =>
    !(s.takeWhile isWsChar).isEmpty && matchToks rest (s.dropWhile isWsChar)
  | Tok.ws0 :: rest, s => matchToks rest (s.dropWhile isWsChar)
  | Tok.digits :: rest, s =>
    !(s.takeWhile Char.isDigit).isEmpty && matchToks rest (s.dropWhile Char.isDigit)
  | Tok.opt c :: rest, s =>
    (match s with
     | c' :: s' => c' = c && matchToks rest s'
     | [] => false)
    || matchToks rest s

/-- Scan `s` for a match of `toks` at any position whose left context
is a word boundary (`prevWord` tracks whether the previous character
was a word character; every compiled pattern starts with a word
character, so `\b` holds exactly when the previous character is not
one). -/
def scanToks (toks : List Tok) : Bool → List Char → Bool
  | _, [] => false
  | prevWord, c :: rest =>
    (!prevWord && matchToks toks (c :: rest)) || scanToks toks (isWordChar c) rest

/-- Whole-string search of a compiled pattern (both ends of the
pattern carry `\b`). -/
def patMatch (toks : List Tok) (s : List Char) : Bool :=
  scanToks toks false s

/-- `\bw\b` for a single word alternative list. -/
def wordPat (ws : List String) : List Tok :=
  [Tok.alts (ws.map String.data)]

/-- `\ba\s+b\b` two-word phrase. -/
def phrasePat (a b : String) : List Tok :=
  [Tok.lit a.data, Tok.ws1, Tok.lit b.data]

/-- The literal `don't` (apostrophe spelled as a character). -/
def dontLit : List Char := ['d', 'o', 'n', '\'', 't']

/-- `SPAM_PATTERNS.high[0]`:
`\b(viagra|cialis|casino|lottery|jackpot|prize\s+winner)\b/i`. -/
def high0 (s : List Char) : Bool :=
  patMatch (wordPat [("viagra"), ("cialis"), ("casino"), ("lottery"), ("jackpot")]) s
  || patMatch (phrasePat ("prize") ("winner")) s

/-- `SPAM_PATTERNS.high[1]`:
`\b(buy\s+now|order\s+now|limited\s+offer|act\s+now|don't\s+miss)\b/i`. -/
def high1 (s : List Char) : Bool :=
  patMatch (phrasePat ("buy") ("now")) s
  || patMatch (phrasePat ("order") ("now")) s
  || patMatch (phrasePat ("limited") ("offer")) s
  || patMatch (phrasePat ("act") ("now")) s
  || patMatch [Tok.lit dontLit, Tok.ws1, Tok.lit (("miss").data)] s

/-- `SPAM_PATTERNS.high[2]`:
`\b(click\s+here|visit\s+my\s+(site|website|blog))\b/i`. -/
def high2 (s : List Char) : Bool :=
  patMatch (phrasePat ("click") ("here")) s
  || patMatch [Tok.lit (("visit").data), Tok.ws1, Tok.lit (("my").data), Tok.ws1,
      Tok.alts [("site").data, ("website").data, ("blog").data]] s

/-- `SPAM_PATTERNS.high[3]`:
`\b(free\s+(money|gift|trial|offer)|earn\s+(cash|money))\b/i`. -/
def high3 (s : List Char) : Bool :=
  patMatch [Tok.lit (("free").data), Tok.ws1,
      Tok.alts [("money").data, ("gift").data, ("trial").data, ("offer").data]] s
  || patMatch [Tok.lit (("earn").data), Tok.ws1,
      Tok.alts [("cash").data, ("money").data]] s

/-- `SPAM_PATTERNS.high[4]`:
`\b(cryptocurrency|bitcoin\s+investment|crypto\s+gains)\b/i`. -/
def high4 (s : List Char) : Bool :=
  patMatch (wordPat [("cryptocurrency")]) s
  || patMatch (phrasePat ("bitcoin") ("investment")) s
  || patMatch (phrasePat ("crypto") ("gains")) s

/-- `SPAM_PATTERNS.high[5]`:
`\b(weight\s+loss|lose\s+\d+\s*(pounds?|kg|lbs?))\b/i`. -/
def high5 (s : List Char) : Bool :=
  patMatch (phrasePat ("weight") ("loss")) s
  || patMatch [Tok.lit (("lose").data), Tok.ws1, Tok.digits, Tok.ws0,
      Tok.alts [("pounds").data, ("pound").data, ("kg").data, ("lbs").data, ("lb").data]] s

/-- `SPAM_PATTERNS.high[6]`:
`\b(work\s+from\s+home|make\s+\$?\d+\s*(per|a)\s*(day|week|hour))\b/i`. -/
def high6 (s : List Char) : Bool :=
  patMatch [Tok.lit (("work").data), Tok.ws1, Tok.lit (("from").data), Tok.ws1,
      Tok.lit (("home").data)] s
  || patMatch [Tok.lit (("make").data), Tok.ws1, Tok.opt '$', Tok.digits, Tok.ws0,
      Tok.alts [("per").data, ("a").data], Tok.ws0,
      Tok.alts [("day").data, ("week").data, ("hour").data]] s

/-- The seven high-severity patterns, in source order. -/
def highPatterns : List (List Char → Bool) :=
  [high0, high1, high2, high3, high4, high5, high6]

/-- Number of high-severity patterns matching the comment (a pattern
counts when it matches the content or the name, as in the source's
`pattern.test(content) || pattern.test(name)`). -/
def highMatchCount (content name : List Char) : Nat :=
  (highPatterns.filter (fun p => p content || p name)).length

/-- Whether any high-severity pattern matches (the source loop breaks
at the first match, so only this disjunction affects the score). -/
def highAny (content name : List Char) : Bool :=
  highPatterns.any (fun p => p content || p name)

/-- `(.)\1{4,}` (case-sensitive): some character repeated at least five
times consecutively. -/
def hasRun5 : List Char → Bool
  | [] => false
  | c :: rest => 4 ≤ (rest.takeWhile (fun d => d = c)).length || hasRun5 rest

/-- `!!!+|[?!]{3,}`: three or more consecutive characters from
`{'!', '?'}` (the first alternative is subsumed by the second). -/
def hasPunct3 : List Char → Bool
  | a :: b :: c :: rest =>
    ((a = '!' || a = '?') && (b = '!' || b = '?') && (c = '!' || c = '?'))
    || hasPunct3 (b :: c :: rest)
  | _ => false

/-- `SPAM_PATTERNS.medium` match count over the content (`cheap…` and
`subscribe…` are `/i` and take the lower-cased content; the
repeated-character and punctuation rules have no `/i` flag and take
the original content). -/
def mediumMatches (content contentLower : List Char) : Nat :=
  (if patMatch (wordPat [("cheap"), ("discount"), ("promo"), ("sale"), ("deal")]) contentLower
   then 1 else 0)
  + (if patMatch (wordPat [("subscribe")]) contentLower
       || patMatch (phrasePat ("follow") ("me")) contentLower
       || patMatch (phrasePat ("check") ("out")) contentLower
     then 1 else 0)
  + (if hasRun5 content then 1 else 0)
  + (if hasPunct3 content then 1 else 0)

/-- `[!.]` character class of the low-effort-comment rule. -/
def isBangDot (c : Char) : Bool := c = '!' || c = '.'

/-- Tail check `\s*[!.]*$` of the anchored low-effort rule. -/
def lowTailOk (s : List Char) : Bool :=
  (s.dropWhile isWsChar).all isBangDot

/-- `SPAM_PATTERNS.low[1]`:
`^(great|nice|good|awesome)\s*(post|article|blog)?\s*[!.]*$/i`, on the
lower-cased content.  The optional group is tried both ways, matching
the regex backtracking. -/
def lowGeneric (s : List Char) : Bool :=
  [("great"), ("nice"), ("good"), ("awesome")].any fun w =>
    (w.data).isPrefixOf s &&
      (let r := (s.drop w.data.length).dropWhile isWsChar
       lowTailOk r
       || [("post"), ("article"), ("blog")].any fun t =>
            (t.data).isPrefixOf r && lowTailOk (r.drop t.data.length))

/-- `SPAM_PATTERNS.low` match count over the lower-cased content
(`amazing…` word rule and the anchored low-effort rule). -/
def lowMatches (contentLower : List Char) : Nat :=
  (if patMatch (wordPat [("amazing"), ("incredible"), ("unbelievable")]) contentLower
      || patMatch (phrasePat ("best") ("ever")) contentLower
   then 1 else 0)
  + (if lowGeneric contentLower then 1 else 0)

/-- If a `URL_PATTERN` alternative
(`https?:\/\/[^\s]+|www\.[^\s]+|\[url\]|\[link\]`) matches at the head
of `s`, the number of characters it consumes.  Takes lower-cased text
(the pattern is `/gi`). -/
def urlTake (s : List Char) : Option Nat :=
  if (("https://").data).isPrefixOf s then
    let body := (s.drop 8).takeWhile (fun c => !isWsChar c)
    if body.isEmpty then none else some (8 + body.length)
  else if (("http://").data).isPrefixOf s then
    let body := (s.drop 7).takeWhile (fun c => !isWsChar c)
    if body.isEmpty then none else some (7 + body.length)
  else if (("www.").data).isPrefixOf s then
    let body := (s.drop 4).takeWhile (fun c => !isWsChar c)
    if body.isEmpty then none else some (4 + body.length)
  else if (("[url]").data).isPrefixOf s then some 5
  else if (("[link]").data).isPrefixOf s then some 6
  else none

/-- Scanner for `content.match(URL_PATTERN).length`.  The first
argument is a skip counter: after a match consuming `n` characters the
scan resumes `n` characters further (expressed structurally so that
the function reduces in the kernel). -/
def urlCountAux : Nat → List Char → Nat
  | Nat.succ k, _ :: rest => urlCountAux k rest
  | _, [] => 0
  | 0, c :: rest =>
    match urlTake (c :: rest) with
    | some n => 1 + urlCountAux (n - 1) rest
    | none => urlCountAux 0 rest

/-- `content.match(URL_PATTERN).length`: number of successive
non-overlapping matches of the URL pattern, scanning left to right. -/
def urlCount (s : List Char) : Nat :=
  urlCountAux 0 s

/-- `EMAIL_PATTERN` = `^[^\s@]+@[^\s@]+\.[^\s@]+$`: no whitespace, one
`@` preceded by at least one character, and a `.` strictly inside the
domain part. -/
def emailFormatOk (s : List Char) : Bool :=
  let a := s.takeWhile (fun c => c ≠ '@')
  match s.dropWhile (fun c => c ≠ '@') with
  | [] => false
  | _ :: d =>
    !a.isEmpty && a.all (fun c => !isWsChar c)
    && !d.isEmpty && d.all (fun c => !isWsChar c && c ≠ '@')
    && (d.tail.dropLast).contains '.'

/-- JS `String.prototype.split` with a single-character separator. -/
def splitOnChar (sep : Char) : List Char → List (List Char)
  | [] => [[]]
  | c :: rest =>
    if c = sep then [] :: splitOnChar sep rest
    else
      match splitOnChar sep rest with
      | [] => [[c]]
      | h :: t => (c :: h) :: t

/-- `SUSPICIOUS_EMAIL_DOMAINS` from the source. -/
def SUSPICIOUS_EMAIL_DOMAINS : List (List Char) :=
  [("tempmail.com").data, ("guerrillamail.com").data, ("throwaway.email").data,
   ("temp-mail.org").data, ("fakeinbox.com").data, ("mailinator.com").data,
   ("yopmail.com").data]

/-- Spam detection result (`SpamCheckResult` from the source), with the
score in exact hundredths. -/
structure SpamCheckResult where
  status : CommentStatus
  score100 : Nat
  reasons : List String
  flagged : Bool
deriving DecidableEq, Repr

/-- `checkSpam` from `lib/spamFilter` with explicit configuration
(`maxLinks`, `minContentLength`, `maxContentLength`; the source
defaults are 2, 10, 2000).  Follows the source rule by rule, in order:
length penalties, excessive links, high-severity keywords (single
fixed penalty with `break` after the first matching pattern),
medium/low pattern counts, email checks, upper-case ratio, URL in the
name.  The final score is the clamp `min 100` of the accumulated sum
(the `max 0` of the source is vacuous: every contribution is
non-negative). -/
def checkSpam (maxLinks minContentLength maxContentLength : Nat)
    (name : List Char) (email : Option (List Char)) (content : List Char) :
    SpamCheckResult :=
  let content := jsTrim content
  let name := jsTrim name
  let contentLower := jsLower content
  let nameLower := jsLower name
  let shortPen := if content.length < minContentLength then 30 else 0
  let longPen := if maxContentLength < content.length then 50 else 0
  let links := urlCount contentLower
  let linksPen := if maxLinks < links then 40 + links * 10 else 0
  let highPen := if highAny contentLower nameLower then 60 else 0
  let mCount := mediumMatches content contentLower
  let mediumPen := mCount * 15
  let lCount := lowMatches contentLower
  let lowPen := lCount * 5
  let emailActive := !(jsFalsy email)
  let emailLower := jsLower (email.getD [])
  let emailFormatPen :=
    if emailActive && !emailFormatOk emailLower then 20 else 0
  let emailDomain := (splitOnChar '@' emailLower).get? 1
  let emailDomainPen :=
    if emailActive &&
        (match emailDomain with
         | some d => SUSPICIOUS_EMAIL_DOMAINS.contains d
         | none => false)
    then 30 else 0
  let upper := (content.filter (fun c => 'A' ≤ c && c ≤ 'Z')).length
  let letters := (content.filter Char.isAlpha).length
  let lettersDen := if letters = 0 then 1 else letters
  let capsPen := if 7 * lettersDen < 10 * upper && 20 < content.length then 20 else 0
  let nameUrlPen := if urlCount nameLower ≠ 0 then 50 else 0
  let total := shortPen + longPen + linksPen + highPen + mediumPen + lowPen
    + emailFormatPen + emailDomainPen + capsPen + nameUrlPen
  let score100 := min 100 total
  let reasons :=
    (if content.length < minContentLength then [("Comment too short")] else [])
    ++ (if maxContentLength < content.length then [("Comment exceeds maximum length")] else [])
    ++ (if maxLinks < links then
          [("Too many links (") ++ Nat.repr links ++ (")")] else [])
    ++ (if highAny contentLower nameLower then [("Contains spam keywords")] else [])
    ++ (if 0 < mCount then [("Contains suspicious patterns")] else [])
    ++ (if emailActive && !emailFormatOk emailLower then [("Invalid email format")] else [])
    ++ (if emailActive &&
            (match emailDomain with
             | some d => SUSPICIOUS_EMAIL_DOMAINS.contains d
             | none => false)
        then [("Disposable email detected")] else [])
    ++ (if 7 * lettersDen < 10 * upper && 20 < content.length then
          [("Excessive use of capital letters")] else [])
    ++ (if urlCount nameLower ≠ 0 then [("URL in name")] else [])
  { status := if 70 ≤ score100 then CommentStatus.SPAM else CommentStatus.PENDING
    score100 := score100
    reasons := reasons
    flagged := 70 ≤ score100 }

/-! ## Comment sanitizer (`sanitizeComment` from `lib/spamFilter`)

`content.replace(<script…>…</script>, '').replace(/<[^>]+>/g, '')
.replace(/\s+/g, ' ').trim()`.  Each global replace is a left-to-right
scan; the scans are written with a structural skip counter (`succ k`
skips a character) so that they reduce in the kernel, and their
natural recurrences are derived as lemmas below. -/

/-- Head test for `<script\b` (case-insensitive on the letters): the
seven characters `<script` in any letter case followed by a word
boundary. -/
def isScriptOpen : List Char → Bool
  | c0 :: c1 :: c2 :: c3 :: c4 :: c5 :: c6 :: rest =>
    c0 = '<'
    && (c1 = 's' || c1 = 'S') && (c2 = 'c' || c2 = 'C') && (c3 = 'r' || c3 = 'R')
    && (c4 = 'i' || c4 = 'I') && (c5 = 'p' || c5 = 'P') && (c6 = 't' || c6 = 'T')
    && (match rest with
        | [] => true
        | d :: _ => !isWordChar d)
  | _ => false

/-- Head test for the literal `</script>` (case-insensitive on the
letters). -/
def isScriptClose : List Char → Bool
  | c0 :: cSlash :: c1 :: c2 :: c3 :: c4 :: c5 :: c6 :: c8 :: _ =>
    c0 = '<' && cSlash = '/'
    && (c1 = 's' || c1 = 'S') && (c2 = 'c' || c2 = 'C') && (c3 = 'r' || c3 = 'R')
    && (c4 = 'i' || c4 = 'I') && (c5 = 'p' || c5 = 'P') && (c6 = 't' || c6 = 'T')
    && c8 = '>'
  | _ => false

/-- Index of the first occurrence of `</script>` in `s`, if any.  The
script-tag regex `<script\b[^<]*(?:(?!<\/script>)<[^<]*)*<\/script>`
matches from an opening `<script\b` up to exactly the first
case-insensitive `</script>` after it (the tempered-dot group forbids
an earlier close inside the match), so this scan captures its
extent. -/
def findCloseIdx : List Char → Option Nat
  | [] => none
  | c :: rest =>
    if isScriptClose (c :: rest) then some 0
    else (findCloseIdx rest).map (· + 1)

/-- Scanner for the script-removal replace; `succ k` skips a
character.  At an opening `<script\b` whose first `</script>` starts
`i` characters after the 7-character head, the whole match spans
`7 + i + 9` characters, so the scan resumes `15 + i` characters into
the tail; without a close the regex does not match at this position
and the scan moves one character. -/
def removeScriptsAux : Nat → List Char → List Char
  | Nat.succ k, _ :: rest => removeScriptsAux k rest
  | _, [] => []
  | 0, c :: rest =>
    if isScriptOpen (c :: rest) then
      match findCloseIdx ((c :: rest).drop 7) with
      | some i => removeScriptsAux (15 + i) rest
      | none => c :: removeScriptsAux 0 rest
    else c :: removeScriptsAux 0 rest

/-- `content.replace(/<script\b[^<]*(?:(?!<\/script>)<[^<]*)*<\/script>/gi, '')`. -/
def removeScripts (s : List Char) : List Char :=
  removeScriptsAux 0 s

/-- Scanner for the tag-removal replace `/<[^>]+>/g`; `succ k` skips a
character.  A match at a `<` exists iff the run of non-`>` characters
after it is non-empty and followed by a `>`; the scan resumes after
that `>`. -/
def stripTagsAux : Nat → List Char → List Char
  | Nat.succ k, _ :: rest => stripTagsAux k rest
  | _, [] => []
  | 0, c :: rest =>
    if c = '<' then
      let t := rest.takeWhile (fun d => d ≠ '>')
      if !t.isEmpty && !(rest.dropWhile (fun d => d ≠ '>')).isEmpty then
        stripTagsAux (t.length + 1) rest
      else c :: stripTagsAux 0 rest
    else c :: stripTagsAux 0 rest

/-- `content.replace(/<[^>]+>/g, '')`. -/
def stripTags (s : List Char) : List Char :=
  stripTagsAux 0 s

/-- Scanner for `/\s+/g → ' '`; `succ k` skips a character.  A maximal
whitespace run is replaced by one space. -/
def collapseWsAux : Nat → List Char → List Char
  | Nat.succ k, _ :: rest => collapseWsAux k rest
  | _, [] => []
  | 0, c :: rest =>
    if isWsChar c then ' ' :: collapseWsAux (rest.takeWhile isWsChar).length rest
    else c :: collapseWsAux 0 rest

/-- `content.replace(/\s+/g, ' ')`. -/
def collapseWs (s : List Char) : List Char :=
  collapseWsAux 0 s

/-- `sanitizeComment` from `lib/spamFilter`: remove script elements,
remove remaining HTML tags, collapse whitespace, trim. -/
def sanitizeComment (s : String) : String :=
  String.mk (jsTrim (collapseWs (stripTags (removeScripts s.data))))

/-! ## Password verification and login (`lib/auth`, dual-format
variant, source `src/unnamed/part_014`)

The cryptographic primitives (`bcrypt.hashSync` with its internal
salt, `bcrypt.compareSync`, `crypto.pbkdf2Sync` keyed by password and
salt) are opaque to the logic and passed as function parameters.
Session/cookie issuance (`createSession`) is modelled separately by
`getSession`; `login` here returns its success flag and the user table
after the opportunistic rehash. -/

/-- A `User` row: the fields touched by login. -/
structure UserRow where
  id : Nat
  email : List Char
  passwordHash : List Char
deriving DecidableEq, Repr

/-- `BCRYPT_PREFIX = 'bcrypt$'`: current-format hashes are stored with
this tag. -/
def BCRYPT_PREFIX : List Char := ("bcrypt$").data

/-- Result of `verifyPassword` in the dual-format variant. -/
structure VerifyResult where
  valid : Bool
  needsRehash : Bool
deriving DecidableEq, Repr

/-- `hashPassword`: hash under the current format and tag it. -/
def hashPassword (bcryptHash : List Char → List Char) (password : List Char) :
    List Char :=
  BCRYPT_PREFIX ++ bcryptHash password

/-- `verifyLegacyPassword`: split the stored value on `:` into salt and
hash (JS destructuring of `split(':')`; a missing or empty part fails),
recompute the legacy digest and compare. -/
def verifyLegacyPassword (pbkdf2 : List Char → List Char → List Char)
    (password storedHash : List Char) : Bool :=
  let parts := splitOnChar ':' storedHash
  let salt := (parts.get? 0).getD []
  let hash := (parts.get? 1).getD []
  if salt.isEmpty || hash.isEmpty then false
  else hash = pbkdf2 password salt

/-- `verifyPassword` (dual-format): a `bcrypt$`-tagged hash is checked
with the current algorithm and needs no rehash; anything else is
checked as a legacy hash and, when valid, flagged for rehash. -/
def verifyPassword (bcryptCompare : List Char → List Char → Bool)
    (pbkdf2 : List Char → List Char → List Char)
    (password storedHash : List Char) : VerifyResult :=
  if BCRYPT_PREFIX.isPrefixOf storedHash then
    { valid := bcryptCompare password (storedHash.drop BCRYPT_PREFIX.length)
      needsRehash := false }
  else
    let legacyValid := verifyLegacyPassword pbkdf2 password storedHash
    { valid := legacyValid, needsRehash := legacyValid }

/-- `login` (dual-format variant): find the user by lower-cased email,
verify the password against the stored hash, and on a successful
legacy verification persist `hashPassword(password)` for that user
before reporting success. -/
def login (bcryptHash : List Char → List Char)
    (bcryptCompare : List Char → List Char → Bool)
    (pbkdf2 : List Char → List Char → List Char)
    (email password : List Char) (users : List UserRow) :
    Bool × List UserRow :=
  match users.find? (fun u => u.email = jsLower email) with
  | none => (false, users)
  | some u =>
    let v := verifyPassword bcryptCompare pbkdf2 password u.passwordHash
    if !v.valid then (false, users)
    else if v.needsRehash then
      (true, users.map (fun x =>
        if x.id = u.id then { x with passwordHash := hashPassword bcryptHash password }
        else x))
    else (true, users)

/-! ## Admin server actions (source `src/unnamed/part_018`, second
part) and the admin post API route (source `src/src/app/api/ping/route.ts`,
second part)

`toggleCommentApproval` authenticates through `requireAdmin` and
toggles only the `approved` flag; `bulkApproveComments` performs no
authentication at all and sets only the `approved` flag; the
`PATCH /api/admin/posts/[id]` route handler performs no authentication
either. -/

/-- `toggleCommentApproval`: `requireAdmin()` (a failure is caught and
the action returns with no change), then flip `approved` of the
comment with the given id, leaving `status` untouched. -/
def toggleCommentApproval (adminEmail : Option (List Char))
    (session : Option SessionUser) (id : Nat) (db : List Comment) : List Comment :=
  match requireAdmin adminEmail session with
  | Except.error _ => db
  | Except.ok _ =>
    match db.find? (fun c => c.id = id) with
    | none => db
    | some c =>
      db.map (fun x => if x.id = id then { x with approved := !c.approved } else x)

/-- `bulkApproveComments`: `updateMany({where: id in ids, data:
{approved: true}})`.  The source performs no `requireAdmin` call, so
the model takes no session. -/
def bulkApproveComments (ids : List Nat) (db : List Comment) : List Comment :=
  db.map (fun c => if ids.contains c.id then { c with approved := true } else c)

/-- `deleteComment`: `requireAdmin` (caught on failure), then delete
the row. -/
def deleteComment (adminEmail : Option (List Char))
    (session : Option SessionUser) (id : Nat) (db : List Comment) : List Comment :=
  match requireAdmin adminEmail session with
  | Except.error _ => db
  | Except.ok _ => db.filter (fun c => c.id ≠ id)

/-- The `PATCH /api/admin/posts/[id]` handler, restricted to the
`published` field of the modelled `Post` row (title/content/excerpt
and the image resync act on fields outside this model).  The handler
has no authentication and no rate limiting: any caller reaching it
performs the update; only a missing post yields an error (404). -/
def adminPostPatch (id : Nat) (published : Option Bool) (db : List Post) :
    Except Nat (List Post) :=
  match db.find? (fun p => p.id = id) with
  | none => Except.error 404
  | some _ =>
    Except.ok (db.map (fun p =>
      if p.id = id then { p with published := published.getD p.published } else p))

/-! ## Comments API route (source `src/src/app/api/comments/route.ts`) -/

/-- The `data` record of `prisma.comment.create` in the POST handler
(restricted to the modelled fields): the status comes from the spam
check on the trimmed fields, and `approved` is `false` unconditionally
("Always requires manual approval"). -/
def submittedComment (id postId : Nat) (name : List Char)
    (email : Option (List Char)) (content : List Char) : Comment :=
  { id := id
    postId := postId
    status := (checkSpam 2 10 2000 (jsTrim name) (email.map jsTrim) (jsTrim content)).status
    approved := false }

/-- The success message returned by the POST handler: the SPAM branch
and the PENDING branch return different texts (both with HTTP 201). -/
def commentSubmitMessage (status : CommentStatus) : String :=
  if status = CommentStatus.SPAM then
    ("Thank you for your comment. It will appear after review.")
  else
    ("Comment submitted successfully. It will appear after approval.")

/-- The `updateData` object built by the PATCH handler. -/
structure CommentUpdate where
  approved : Option Bool
  status : Option CommentStatus
deriving DecidableEq, Repr

/-- PATCH normalization: a boolean `approved` field is copied, and
`approved = true` also sets `status := APPROVED`; a valid `status`
string is copied, and `APPROVED` forces `approved := true` while
`REJECTED`/`SPAM` force `approved := false` (a `PENDING` status is
accepted but leaves `approved` as previously built); any other status
value is ignored. -/
def buildCommentUpdate (approvedField : Option Bool)
    (statusField : Option (List Char)) : CommentUpdate :=
  let u : CommentUpdate := { approved := none, status := none }
  let u := match approvedField with
    | some b =>
      { u with
        approved := some b
        status := if b then some CommentStatus.APPROVED else u.status }
    | none => u
  match statusField with
  | some s =>
    if s = ("APPROVED").data then
      { u with status := some CommentStatus.APPROVED, approved := some true }
    else if s = ("REJECTED").data then
      { u with status := some CommentStatus.REJECTED, approved := some false }
    else if s = ("SPAM").data then
      { u with status := some CommentStatus.SPAM, approved := some false }
    else if s = ("PENDING").data then
      { u with status := some CommentStatus.PENDING }
    else u
  | none => u

/-- `prisma.comment.update({data: updateData})` on one row: fields
absent from the update keep their stored values. -/
def applyCommentUpdate (u : CommentUpdate) (c : Comment) : Comment :=
  { c with approved := u.approved.getD c.approved, status := u.status.getD c.status }

/-- The PATCH handler: rate limit elided (it does not alter the
update), then `requireAdminResponse` (401/403 exactly as
`requireAdmin`), then 400 when the body holds no usable field, then
the update applied to the comment with the given id. -/
def patchComment (adminEmail : Option (List Char)) (session : Option SessionUser)
    (id : Nat) (approvedField : Option Bool) (statusField : Option (List Char))
    (db : List Comment) : Except Nat (List Comment) :=
  match requireAdmin adminEmail session with
  | Except.error e => Except.error e
  | Except.ok _ =>
    let u := buildCommentUpdate approvedField statusField
    if u.approved.isNone && u.status.isNone then Except.error 400
    else
      Except.ok (db.map (fun c => if c.id = id then applyCommentUpdate u c else c))

/-- The public branch of the GET handler (`includeUnapproved` absent):
the Prisma `where` clause is `{postId?, approved: true}` — the parent
post's `published` flag is not part of the query. -/
def publicComments (postId : Option Nat) (db : List Comment) : List Comment :=
  db.filter (fun c =>
    (match postId with
     | some p => c.postId = p
     | none => true)
    && c.approved)

/-- Membership of a timestamp in the rolling half-open window
`(s, s + W]`. -/
def inWindow (W s t : Nat) : Bool := decide (s < t) && decide (t ≤ s + W)

/-- A match of `/<[^>]+>/` somewhere in `s`. -/
def HasTag (s : List Char) : Prop :=
  ∃ a t b, s = a ++ '<' :: (t ++ '>' :: b) ∧ t ≠ [] ∧ '>' ∉ t

/-- Canonical whitespace: every whitespace character is a plain space
and no two whitespace characters are adjacent. -/
def canonWs : List Char → Bool
  | [] => true
  | c :: rest =>
    (!isWsChar c || c = ' ')
    && (match rest with
        | [] => true
        | d :: _ => !(isWsChar c && isWsChar d))
    && canonWs rest


/-! ## Theorems -/

/-- C10: with no configured admin email, `isAdmin` is false for every
input (absent or present), `requireAdmin` answers 401 to every
unauthenticated caller and 403 to every authenticated one — admin
access fails closed. -/
theorem isAdmin_requireAdmin_fail_closed :
    (∀ email, isAdmin none email = false)
    ∧ requireAdmin none none = Except.error 401
    ∧ (∀ u, requireAdmin none (some u) = Except.error 403) := by
  refine ⟨?_, rfl, ?_⟩
  · intro email
    unfold isAdmin jsFalsy
    split <;> rfl
  · intro u
    unfold requireAdmin
    have h : isAdmin none (some u.email) = false := by
      unfold isAdmin jsFalsy
      split <;> rfl
    simp [h]

/-- C8: a stored session whose expiry is before the current time is
reported absent by `getSession` and deleted, so a second `getSession`
with the same token (at any time) is also absent.  The `Nodup`
hypothesis is the session table's unique-token constraint (spec §3:
the opaque token is unique). -/
theorem getSession_expired_absent_and_deleted
    (now : Nat) (tok : List Char) (db : List SessionRow) (s : SessionRow)
    (hfind : db.find? (fun r => r.token = tok) = some s)
    (hexp : s.expiresAt < now)
    (hnodup : (db.map SessionRow.token).Nodup) :
    (getSession now (some tok) db).1 = none
    ∧ ∀ now2, (getSession now2 (some tok) (getSession now (some tok) db).2).1 = none := by
  have hs_tok : s.token = tok := by
    have := List.find?_some hfind
    exact of_decide_eq_true this
  have hs_mem : s ∈ db := List.mem_of_find?_eq_some hfind
  have h1 : getSession now (some tok) db
      = (none, db.filter (fun r => r.id ≠ s.id)) := by
    unfold getSession
    dsimp only
    rw [hfind]
    simp [hexp]
  refine ⟨by rw [h1], ?_⟩
  intro now2
  rw [h1]
  have hnone : (db.filter (fun r => r.id ≠ s.id)).find? (fun r => r.token = tok)
      = none := by
    rw [List.find?_eq_none]
    intro x hx
    have hx_mem : x ∈ db := List.mem_of_mem_filter hx
    have hx_keep : x.id ≠ s.id := by
      have := List.of_mem_filter hx
      exact of_decide_eq_true this
    intro hxt
    have hxtok : x.token = tok := of_decide_eq_true hxt
    have : x = s := List.inj_on_of_nodup_map hnodup hx_mem hs_mem (by rw [hxtok, hs_tok])
    exact hx_keep (by rw [this])
  unfold getSession
  dsimp only
  rw [hnone]

/-- C8 witness: a concrete expired session is reported absent twice. -/
theorem getSession_expired_witness :
    (getSession 11 (some ['t']) [⟨1, ['t'], 5, 10⟩]).1 = none
    ∧ ∀ now2,
        (getSession now2 (some ['t']) (getSession 11 (some ['t']) [⟨1, ['t'], 5, 10⟩]).2).1
          = none :=
  getSession_expired_absent_and_deleted 11 ['t'] [⟨1, ['t'], 5, 10⟩] ⟨1, ['t'], 5, 10⟩
    (by decide) (by decide) (by decide)

set_option maxRecDepth 8000 in
/-- C3: the POST success responses for a SPAM-classified and a
PENDING-classified valid submission (spec scenarios B and A) carry
different message texts, so the submitter can distinguish the
classification — contradicting the handler's own comment that the
spam flag is not revealed. -/
theorem spam_pending_messages_differ :
    (checkSpam 2 10 2000 (("http://spam.biz").data) none
        (("BUY NOW CHEAP VIAGRA CLICK HERE").data)).status = CommentStatus.SPAM
    ∧ (checkSpam 2 10 2000 (("Bob").data) none
        (("Great article, thanks for sharing!!!").data)).status = CommentStatus.PENDING
    ∧ commentSubmitMessage CommentStatus.SPAM
        ≠ commentSubmitMessage CommentStatus.PENDING := by
  refine ⟨by decide, by decide, by decide⟩

/-- C1: `bulkApproveComments` and the `PATCH /api/admin/posts/[id]`
handler take no session and perform their state change for any caller:
evaluated at concrete inputs, the unauthenticated call mutates the
stored rows instead of being rejected with 401/403. -/
theorem bulkApprove_postPatch_unauthenticated_mutation :
    bulkApproveComments [1]
        [({ id := 1, postId := 7, status := CommentStatus.PENDING, approved := false } : Comment)]
      = [{ id := 1, postId := 7, status := CommentStatus.PENDING, approved := true }]
    ∧ adminPostPatch 3 (some false) [({ id := 3, published := true } : Post)]
      = Except.ok [{ id := 3, published := false }] :=
  ⟨rfl, rfl⟩

/-- C2 counterexample: bulk approval of a PENDING comment yields
`approved = true` with `status = PENDING`, violating the
`approved ↔ status = APPROVED` invariant. -/
theorem commentInv_bulkApprove_counterexample :
    bulkApproveComments [1]
        [({ id := 1, postId := 7, status := CommentStatus.PENDING, approved := false } : Comment)]
      = [{ id := 1, postId := 7, status := CommentStatus.PENDING, approved := true }]
    ∧ ¬ commentInv { id := 1, postId := 7, status := CommentStatus.PENDING, approved := true } := by
  decide

/-- Helper: the status of a spam check is SPAM exactly at the 0.7
threshold on its own score (definitional). -/
theorem checkSpam_status_def (a b c : Nat) (name : List Char)
    (email : Option (List Char)) (content : List Char) :
    (checkSpam a b c name email content).status
      = if 70 ≤ (checkSpam a b c name email content).score100 then CommentStatus.SPAM
        else CommentStatus.PENDING := rfl

/-- Helper: three (indeed, any positive number of) matching
high-severity patterns make `highAny` true. -/
theorem highAny_of_count {c n : List Char} (h : 3 ≤ highMatchCount c n) :
    highAny c n = true := by
  by_contra hfalse
  rw [Bool.not_eq_true] at hfalse
  unfold highAny at hfalse
  have hnil : highPatterns.filter (fun p => p c || p n) = [] :=
    List.filter_eq_nil_iff.mpr (fun p hp => by
      have := List.any_eq_false.mp hfalse p hp
      simpa using this)
  unfold highMatchCount at h
  rw [hnil] at h
  simp at h

set_option maxRecDepth 8000 in
/-- C5 counterexample: the comment content
`viagra buy now click here and more words` (name `Bob`) matches three
distinct high-severity patterns, yet `checkSpam` scores it 0.60 — the
high-severity loop breaks after the first match — and classifies it
PENDING, not SPAM. -/
theorem checkSpam_three_high_counterexample :
    highMatchCount (jsLower (jsTrim (("viagra buy now click here and more words").data)))
        (jsLower (jsTrim (("Bob").data))) = 3
    ∧ (checkSpam 2 10 2000 (("Bob").data) none
        (("viagra buy now click here and more words").data)).score100 = 60
    ∧ (checkSpam 2 10 2000 (("Bob").data) none
        (("viagra buy now click here and more words").data)).status
        = CommentStatus.PENDING := by
  refine ⟨by decide, by decide, by decide⟩

/-- C5 (amended): a comment matching at least three distinct
high-severity patterns receives the single fixed high-severity penalty,
so its score is at least 0.60; the SPAM classification holds exactly
when the total score reaches 0.70; and the submitted comment is
persisted with `approved = false` regardless of the classification. -/
theorem checkSpam_high_match_score_bound (id postId : Nat) (name : List Char)
    (email : Option (List Char)) (content : List Char)
    (h : 3 ≤ highMatchCount (jsLower (jsTrim content)) (jsLower (jsTrim name))) :
    60 ≤ (checkSpam 2 10 2000 name email content).score100
    ∧ ((checkSpam 2 10 2000 name email content).status = CommentStatus.SPAM
        ↔ 70 ≤ (checkSpam 2 10 2000 name email content).score100)
    ∧ (submittedComment id postId name email content).approved = false := by
  have hany := highAny_of_count h
  refine ⟨?_, ?_, rfl⟩
  · unfold checkSpam
    dsimp only
    rw [hany]
    simp only [reduceIte]
    omega
  · rw [checkSpam_status_def]
    split <;> simp_all

set_option maxRecDepth 8000 in
/-- C5 witness: the score bound applied to the concrete
three-high-match comment. -/
theorem checkSpam_high_match_score_bound_witness :
    60 ≤ (checkSpam 2 10 2000 (("Bob").data) none
        (("viagra buy now click here and more words").data)).score100
    ∧ ((checkSpam 2 10 2000 (("Bob").data) none
        (("viagra buy now click here and more words").data)).status = CommentStatus.SPAM
        ↔ 70 ≤ (checkSpam 2 10 2000 (("Bob").data) none
            (("viagra buy now click here and more words").data)).score100)
    ∧ (submittedComment 1 1 (("Bob").data) none
        (("viagra buy now click here and more words").data)).approved = false :=
  checkSpam_high_match_score_bound 1 1 (("Bob").data) none
    (("viagra buy now click here and more words").data) (by decide)

/-- C2 (amended): the `approved ↔ status = APPROVED` invariant holds
for every comment created by the public submission path, after every
admin PATCH carrying a status value in {APPROVED, REJECTED, SPAM}, and
after a PATCH carrying `approved = true`; it is not maintained by
approval toggling, bulk approval, a PATCH with `approved = false`
alone, or a PATCH with status PENDING. -/
theorem commentInv_submit_and_patch :
    (∀ id postId name email content,
        commentInv (submittedComment id postId name email content))
    ∧ (∀ af st c,
        (st = ("APPROVED").data ∨ st = ("REJECTED").data ∨ st = ("SPAM").data) →
        commentInv (applyCommentUpdate (buildCommentUpdate af (some st)) c))
    ∧ (∀ c, commentInv (applyCommentUpdate (buildCommentUpdate (some true) none) c)) := by
  refine ⟨?_, ?_, ?_⟩
  · intro id postId name email content
    unfold commentInv submittedComment
    dsimp only
    rw [checkSpam_status_def]
    split <;> simp
  · intro af st c h
    rcases h with h | h | h <;> subst h
    · have hb : buildCommentUpdate af (some (("APPROVED").data))
          = { approved := some true, status := some CommentStatus.APPROVED } := by
        rcases af with _ | b <;> rfl
      rw [hb]
      unfold applyCommentUpdate commentInv
      simp
    · have hb : buildCommentUpdate af (some (("REJECTED").data))
          = { approved := some false, status := some CommentStatus.REJECTED } := by
        rcases af with _ | b <;> rfl
      rw [hb]
      unfold applyCommentUpdate commentInv
      simp
    · have hb : buildCommentUpdate af (some (("SPAM").data))
          = { approved := some false, status := some CommentStatus.SPAM } := by
        rcases af with _ | b <;> rfl
      rw [hb]
      unfold applyCommentUpdate commentInv
      simp
  · intro c
    have hb : buildCommentUpdate (some true) none
        = { approved := some true, status := some CommentStatus.APPROVED } := rfl
    rw [hb]
    unfold applyCommentUpdate commentInv
    simp

/-- C2 witness: the invariant holds at concrete instances of the
three protected operations. -/
theorem commentInv_submit_and_patch_witness :
    commentInv (submittedComment 1 2 (("Bob").data) none (("A perfectly fine comment.").data))
    ∧ commentInv (applyCommentUpdate
        (buildCommentUpdate none (some (("REJECTED").data)))
        { id := 1, postId := 2, status := CommentStatus.APPROVED, approved := true })
    ∧ commentInv (applyCommentUpdate (buildCommentUpdate (some true) none)
        { id := 1, postId := 2, status := CommentStatus.PENDING, approved := false }) :=
  ⟨commentInv_submit_and_patch.1 1 2 (("Bob").data) none (("A perfectly fine comment.").data),
   commentInv_submit_and_patch.2.1 none (("REJECTED").data) _ (Or.inr (Or.inl rfl)),
   commentInv_submit_and_patch.2.2 _⟩

/-- C6: password verification accepts both the current
(`bcrypt$`-tagged) format and the legacy (`salt:hash`) format, and a
successful login against a legacy-format hash persists the
current-format rehash for that user.  Quantified over the opaque
cryptographic primitives. -/
theorem verifyPassword_dual_format_login_rehash :
    (∀ (bc : List Char → List Char → Bool) (pk : List Char → List Char → List Char)
        (pw rest : List Char),
        verifyPassword bc pk pw (BCRYPT_PREFIX ++ rest)
          = { valid := bc pw rest, needsRehash := false })
    ∧ (∀ (bc : List Char → List Char → Bool) (pk : List Char → List Char → List Char)
        (pw stored : List Char),
        ¬ BCRYPT_PREFIX.isPrefixOf stored →
        verifyPassword bc pk pw stored
          = { valid := verifyLegacyPassword pk pw stored
              needsRehash := verifyLegacyPassword pk pw stored })
    ∧ (∀ (bh : List Char → List Char) (bc : List Char → List Char → Bool)
        (pk : List Char → List Char → List Char)
        (email pw : List Char) (users : List UserRow) (u : UserRow),
        users.find? (fun x => x.email = jsLower email) = some u →
        ¬ BCRYPT_PREFIX.isPrefixOf u.passwordHash →
        verifyLegacyPassword pk pw u.passwordHash = true →
        (login bh bc pk email pw users).1 = true
        ∧ (login bh bc pk email pw users).2
            = users.map (fun x =>
                if x.id = u.id then { x with passwordHash := hashPassword bh pw }
                else x)) := by
  refine ⟨?_, ?_, ?_⟩
  · intro bc pk pw rest
    unfold verifyPassword
    have hpre : BCRYPT_PREFIX.isPrefixOf (BCRYPT_PREFIX ++ rest) = true :=
      List.isPrefixOf_iff_prefix.mpr (List.prefix_append _ _)
    rw [hpre]
    simp [List.drop_left]
  · intro bc pk pw stored hnot
    unfold verifyPassword
    rw [Bool.not_eq_true] at hnot
    rw [hnot]
    simp
  · intro bh bc pk email pw users u hfind hnot hlegacy
    have hv : verifyPassword bc pk pw u.passwordHash
        = { valid := true, needsRehash := true } := by
      unfold verifyPassword
      rw [Bool.not_eq_true] at hnot
      rw [hnot, hlegacy]
      simp
    unfold login
    rw [hfind]
    simp [hv]

/-- C6 witness: with concrete primitives, a user stored under a legacy
`salt:hash` value logs in successfully and ends up with a
`bcrypt$`-tagged hash. -/
theorem verifyPassword_dual_format_login_rehash_witness :
    (login (fun _ => ['B']) (fun _ _ => true) (fun _ _ => ['h'])
        ['a'] ['p'] [⟨1, ['a'], ['s', ':', 'h']⟩]).1 = true
    ∧ (login (fun _ => ['B']) (fun _ _ => true) (fun _ _ => ['h'])
        ['a'] ['p'] [⟨1, ['a'], ['s', ':', 'h']⟩]).2
        = [⟨1, ['a'], ['s', ':', 'h']⟩].map (fun x =>
            if x.id = 1 then { x with passwordHash := hashPassword (fun _ => ['B']) ['p'] }
            else x) := by
  have h := verifyPassword_dual_format_login_rehash.2.2
    (fun _ => ['B']) (fun _ _ => true) (fun _ _ => ['h'])
    ['a'] ['p'] [⟨1, ['a'], ['s', ':', 'h']⟩] ⟨1, ['a'], ['s', ':', 'h']⟩
    (by decide) (by decide) (by decide)
  exact h

/-- C7 counterexample: a comment with `approved = true` whose parent
post exists and is unpublished is still returned by the public branch
of the comments GET handler — the query filters on `approved` only. -/
theorem publicComments_unpublished_counterexample :
    publicComments (some 1)
        [({ id := 5, postId := 1, status := CommentStatus.APPROVED, approved := true } : Comment)]
      = [{ id := 5, postId := 1, status := CommentStatus.APPROVED, approved := true }]
    ∧ ([({ id := 1, published := false } : Post)].find? (fun p => p.id = 1))
      = some { id := 1, published := false } := by
  exact ⟨rfl, rfl⟩

/-- C7 (amended): the public comment read path returns exactly the
comments with `approved = true` (matching the requested post); the
parent post's `published` flag is not consulted. -/
theorem publicComments_approved_iff (db : List Comment) (pid : Nat) (c : Comment) :
    c ∈ publicComments (some pid) db
      ↔ c ∈ db ∧ c.postId = pid ∧ c.approved = true := by
  unfold publicComments
  rw [List.mem_filter]
  constructor
  · rintro ⟨hmem, hp⟩
    simp only [Bool.and_eq_true, decide_eq_true_eq] at hp
    exact ⟨hmem, hp.1, hp.2⟩
  · rintro ⟨hmem, hpid, happ⟩
    refine ⟨hmem, ?_⟩
    simp [hpid, happ]

/-- Helper: pruning to a window ending at `now` then to a later window
is the same as pruning to the later window alone. -/
theorem filter_window_absorb {W now T : Nat} (h : now ≤ T) (l : List Nat) :
    (l.filter (fun t => now < t + W)).filter (fun t => T < t + W)
      = l.filter (fun t => T < t + W) := by
  rw [List.filter_filter]
  apply List.filter_congr
  intro t _
  by_cases hT : T < t + W
  · simp [hT, lt_of_le_of_lt h hT]
  · simp [hT]

/-- Helper: the admit decision of `checkRateLimit` compares the pruned
store length with the limit. -/
theorem checkRateLimit_allowed (W max now : Nat) (store : List Nat) :
    (checkRateLimit W max now store).1.allowed
      = !decide (max ≤ (store.filter (fun t => now < t + W)).length) := by
  unfold checkRateLimit
  dsimp only
  split
  · next h => simp [h]
  · next h => simp [h]

/-- Helper: the store after `checkRateLimit`: unchanged on rejection,
pruned-plus-`now` on admission. -/
theorem checkRateLimit_store (W max now : Nat) (store : List Nat) :
    (checkRateLimit W max now store).2
      = if max ≤ (store.filter (fun t => now < t + W)).length then store
        else store.filter (fun t => now < t + W) ++ [now] := by
  unfold checkRateLimit
  dsimp only
  split
  · next h => simp [h]
  · next h => simp [h]


/-- Helper: the main induction for the rolling-window bound.  `store`
is the stored timestamp list, `A` the timestamps admitted so far, `T`
the time of the latest processed call; the store, pruned to any window
reaching past `T`, coincides with the admitted list so pruned. -/
theorem runRL_aux (W max : Nat) :
    ∀ (calls : List (Nat × Bool)) (store A : List Nat) (T : Nat),
      (∀ c ∈ calls, T ≤ c.1) →
      (calls.map Prod.fst).Sorted (· ≤ ·) →
      (∀ T', T ≤ T' →
        store.filter (fun t => T' < t + W) = A.filter (fun t => T' < t + W)) →
      (∀ t ∈ A, t ≤ T) →
      (∀ s, (A.filter (inWindow W s)).length ≤ max) →
      ∀ s, ((A ++ (runRateLimiter W max calls store).2).filter (inWindow W s)).length ≤ max
  | [], store, A, T, _, _, _, _, hbound, s => by
      unfold runRateLimiter
      simpa using hbound s
  | (now, clean) :: calls, store, A, T, hcalls, hsorted, hstoreA, hA, hbound, s => by
      have hTnow : T ≤ now := hcalls (now, clean) (List.mem_cons_self _ _)
      have hsorted_head : ∀ b ∈ calls.map Prod.fst, now ≤ b :=
        (List.sorted_cons.mp (by simpa using hsorted)).1
      have hsorted_tail : (calls.map Prod.fst).Sorted (· ≤ ·) :=
        (List.sorted_cons.mp (by simpa using hsorted)).2
      have hcalls' : ∀ c ∈ calls, now ≤ c.1 := fun c hc =>
        hsorted_head c.1 (List.mem_map_of_mem Prod.fst hc)
      -- the store after the optional cleanup pass
      set store1 := if clean then store.filter (fun t => now < t + W) else store with hstore1_def
      have hstore1 : ∀ T', now ≤ T' →
          store1.filter (fun t => T' < t + W) = A.filter (fun t => T' < t + W) := by
        intro T' hT'
        rw [hstore1_def]
        cases clean
        · simpa using hstoreA T' (le_trans hTnow hT')
        · simp only [if_true]
          rw [filter_window_absorb hT']
          exact hstoreA T' (le_trans hTnow hT')
      have hV : store1.filter (fun t => now < t + W) = A.filter (fun t => now < t + W) :=
        hstore1 now le_rfl
      have hrun : runRateLimiter W max ((now, clean) :: calls) store
          = ((runRateLimiter W max calls (checkRateLimit W max now store1).2).1,
             (if (checkRateLimit W max now store1).1.allowed then [now] else [])
               ++ (runRateLimiter W max calls (checkRateLimit W max now store1).2).2) := by
        rw [hstore1_def]
        rfl
      rw [hrun]
      by_cases hle : max ≤ (store1.filter (fun t => now < t + W)).length
      · -- rejected: store unchanged, nothing admitted
        have hal : (checkRateLimit W max now store1).1.allowed = false := by
          rw [checkRateLimit_allowed]; simp [hle]
        have hst : (checkRateLimit W max now store1).2 = store1 := by
          rw [checkRateLimit_store]; simp [hle]
        rw [hal, hst]
        simp only [if_false, List.nil_append]
        exact runRL_aux W max calls store1 A now hcalls' hsorted_tail hstore1
          (fun t ht => le_trans (hA t ht) hTnow) hbound s
      · -- admitted: now is appended to the store and to the admitted list
        have hal : (checkRateLimit W max now store1).1.allowed = true := by
          rw [checkRateLimit_allowed]; simp [hle]
        have hst : (checkRateLimit W max now store1).2
            = store1.filter (fun t => now < t + W) ++ [now] := by
          rw [checkRateLimit_store]; simp [hle]
        rw [hal, hst]
        simp only [if_true]
        have hstore' : ∀ T', now ≤ T' →
            (store1.filter (fun t => now < t + W) ++ [now]).filter (fun t => T' < t + W)
              = (A ++ [now]).filter (fun t => T' < t + W) := by
          intro T' hT'
          rw [List.filter_append, List.filter_append]
          congr 1
          rw [filter_window_absorb hT', hstore1 T' hT']
        have hA' : ∀ t ∈ A ++ [now], t ≤ now := by
          intro t ht
          rcases List.mem_append.mp ht with h | h
          · exact le_trans (hA t h) hTnow
          · simp at h; omega
        have hbound' : ∀ s', ((A ++ [now]).filter (inWindow W s')).length ≤ max := by
          intro s'
          rw [List.filter_append]
          by_cases hin : inWindow W s' now = true
          · -- the window contains `now`: previously admitted calls in it are all
            -- inside the pruned list, whose length is below `max`
            have hsub : (A.filter (inWindow W s')).length
                ≤ (A.filter (fun t => now < t + W)).length := by
              have hcongr : A.filter (inWindow W s')
                  = (A.filter (fun t => now < t + W)).filter (inWindow W s') := by
                rw [List.filter_filter]
                apply List.filter_congr
                intro t _
                by_cases hw : inWindow W s' t = true
                · have hs1 : s' < t := by
                    have := hw; unfold inWindow at this; simp at this; exact this.1
                  have hs2 : now ≤ s' + W := by
                    unfold inWindow at hin; simp at hin; exact hin.2
                  have : now < t + W := by omega
                  simp [hw, this]
                · simp [Bool.eq_false_iff.mpr hw]
              rw [hcongr]
              exact List.length_filter_le _ _
            have hVlen : (A.filter (fun t => now < t + W)).length < max := by
              rw [← hV]; omega
            have : ([now].filter (inWindow W s')).length ≤ 1 := List.length_filter_le _ _
            rw [List.length_append]
            omega
          · have : [now].filter (inWindow W s') = [] := by
              simp [Bool.eq_false_iff.mpr hin]
            rw [this]
            simpa using hbound s'
        have := runRL_aux W max calls (store1.filter (fun t => now < t + W) ++ [now])
          (A ++ [now]) now hcalls' hsorted_tail hstore' hA' hbound' s
        rw [List.append_assoc] at this
        simpa using this

/-- C4: (in-memory variant) over any sequence of same-identifier calls
with non-decreasing timestamps, starting from an empty store, the
number of calls answered `allowed` whose timestamps lie in any rolling
half-open window `(s, s + windowMs]` never exceeds `maxRequests`,
whether or not the periodic cleanup pass runs at any call. -/
theorem rateLimiter_rolling_window_bound (W max : Nat) (calls : List (Nat × Bool))
    (hsorted : (calls.map Prod.fst).Sorted (· ≤ ·)) (s : Nat) :
    ((runRateLimiter W max calls []).2.filter
        (fun t => decide (s < t) && decide (t ≤ s + W))).length ≤ max := by
  have := runRL_aux W max calls [] [] 0
    (fun c _ => Nat.zero_le _) hsorted
    (fun T' _ => rfl) (by simp) (by simp [inWindow]) s
  simpa [inWindow] using this

/-- C4 witness: a concrete run (window 10, limit 2, calls at 0, 1, 2,
11, the last with a cleanup pass) respects the bound on the window
`(0, 10]`. -/
theorem rateLimiter_rolling_window_bound_witness :
    ((runRateLimiter 10 2 [(0, false), (1, false), (2, false), (11, true)] []).2.filter
        (fun t => decide (0 < t) && decide (t ≤ 0 + 10))).length ≤ 2 :=
  rateLimiter_rolling_window_bound 10 2 [(0, false), (1, false), (2, false), (11, true)]
    (by decide) 0

theorem dropWhile_eq_drop_takeWhile (p : Char → Bool) (l : List Char) :
    l.dropWhile p = l.drop (l.takeWhile p).length := by
  induction l with
  | nil => rfl
  | cons c rest ih =>
    by_cases h : p c
    · rw [List.takeWhile_cons_of_pos h, List.dropWhile_cons_of_pos h]
      simpa using ih
    · rw [List.takeWhile_cons_of_neg h, List.dropWhile_cons_of_neg h]
      rfl

theorem stripTagsAux_eq_drop (l : List Char) :
    ∀ k, stripTagsAux k l = stripTags (l.drop k) := by
  induction l with
  | nil => intro k; cases k <;> rfl
  | cons c rest ih =>
    intro k
    cases k with
    | zero => rfl
    | succ j =>
      show stripTagsAux j rest = _
      rw [ih j]
      rfl

theorem stripTags_cons (c : Char) (rest : List Char) :
    stripTags (c :: rest)
      = if c = '<' then
          (if !(rest.takeWhile (fun d => d ≠ '>')).isEmpty
              && !(rest.dropWhile (fun d => d ≠ '>')).isEmpty then
            stripTags ((rest.dropWhile (fun d => d ≠ '>')).tail)
          else c :: stripTags rest)
        else c :: stripTags rest := by
  show stripTagsAux 0 (c :: rest) = _
  unfold stripTagsAux
  by_cases h : c = '<'
  · simp only [h, if_true]
    by_cases h2 : (!(rest.takeWhile (fun d => d ≠ '>')).isEmpty
        && !(rest.dropWhile (fun d => d ≠ '>')).isEmpty) = true
    · rw [if_pos h2, if_pos h2]
      rw [stripTagsAux_eq_drop]
      congr 1
      rw [← List.drop_drop, ← dropWhile_eq_drop_takeWhile]
      cases hd : rest.dropWhile (fun d => d ≠ '>') with
      | nil => simp
      | cons x xs => simp
    · rw [if_neg h2, if_neg h2]
      rfl
  · simp only [h, if_false]
    rfl



theorem hasTag_cons {s : List Char} (c : Char) (h : HasTag s) : HasTag (c :: s) := by
  obtain ⟨a, t, b, hs, ht, hmem⟩ := h
  exact ⟨c :: a, t, b, by rw [hs]; rfl, ht, hmem⟩

theorem hasTag_append_left {s : List Char} (u : List Char) (h : HasTag s) :
    HasTag (u ++ s) := by
  induction u with
  | nil => exact h
  | cons c u ih => exact hasTag_cons c ih

theorem hasTag_append_right {s : List Char} (u : List Char) (h : HasTag s) :
    HasTag (s ++ u) := by
  obtain ⟨a, t, b, hs, ht, hmem⟩ := h
  exact ⟨a, t, b ++ u, by rw [hs]; simp, ht, hmem⟩

theorem hasTag_of_cons {c : Char} {s : List Char} (hne : c ≠ '<') (h : HasTag (c :: s)) :
    HasTag s := by
  obtain ⟨a, t, b, hs, ht, hmem⟩ := h
  cases a with
  | nil => cases hs; exact absurd rfl hne
  | cons x a =>
    rw [List.cons_append] at hs
    injection hs with h1 h2
    exact ⟨a, t, b, h2, ht, hmem⟩

theorem stripTags_nil : stripTags [] = [] := rfl

theorem mem_stripTags_aux {a : Char} :
    ∀ (n : Nat) (s : List Char), s.length ≤ n → a ∈ stripTags s → a ∈ s := by
  intro n
  induction n with
  | zero =>
    intro s hlen h
    cases s with
    | nil => rw [stripTags_nil] at h; simp at h
    | cons c rest => simp at hlen
  | succ n ih =>
    intro s hlen
    cases s with
    | nil => intro h; rw [stripTags_nil] at h; simp at h
    | cons c rest =>
      rw [stripTags_cons]
      by_cases hc : c = '<'
      · rw [if_pos hc]
        by_cases hcond : (!(rest.takeWhile (fun d => d ≠ '>')).isEmpty
            && !(rest.dropWhile (fun d => d ≠ '>')).isEmpty) = true
        · rw [if_pos hcond]
          intro h
          have h1 : (rest.dropWhile (fun d => d ≠ '>')).length ≤ rest.length :=
            (List.dropWhile_sublist _).length_le
          have h2 : ((rest.dropWhile (fun d => d ≠ '>')).tail).length
              ≤ (rest.dropWhile (fun d => d ≠ '>')).length := by
            cases rest.dropWhile (fun d => d ≠ '>') <;> simp
          have hlen' : ((rest.dropWhile (fun d => d ≠ '>')).tail).length ≤ n := by
            simp only [List.length_cons] at hlen
            omega
          have hmem := ih _ hlen' h
          have h3 : a ∈ rest.dropWhile (fun d => d ≠ '>') := by
            cases hd : rest.dropWhile (fun d => d ≠ '>') with
            | nil => rw [hd] at hmem; simp at hmem
            | cons x xs => rw [hd] at hmem; exact List.mem_cons_of_mem x hmem
          have h4 : a ∈ rest :=
            (List.dropWhile_sublist (l := rest) (p := fun d => d ≠ '>')).mem h3
          exact List.mem_cons_of_mem c h4
        · rw [if_neg hcond]
          intro h
          rcases List.mem_cons.mp h with h | h
          · exact h ▸ List.mem_cons_self c rest
          · have hlen' : rest.length ≤ n := by
              simp only [List.length_cons] at hlen; omega
            exact List.mem_cons_of_mem c (ih _ hlen' h)
      · rw [if_neg hc]
        intro h
        rcases List.mem_cons.mp h with h | h
        · exact h ▸ List.mem_cons_self c rest
        · have hlen' : rest.length ≤ n := by
            simp only [List.length_cons] at hlen; omega
          exact List.mem_cons_of_mem c (ih _ hlen' h)

theorem mem_stripTags {a : Char} {s : List Char} (h : a ∈ stripTags s) : a ∈ s :=
  mem_stripTags_aux s.length s le_rfl h


theorem not_hasTag_nil : ¬ HasTag [] := by
  rintro ⟨a, t, b, hs, ht, hm⟩
  cases a <;> simp at hs

theorem hasTag_cons_elim {c : Char} {s : List Char} (h : HasTag (c :: s)) :
    (c = '<' ∧ ∃ t b, s = t ++ '>' :: b ∧ t ≠ [] ∧ '>' ∉ t) ∨ HasTag s := by
  obtain ⟨a, t, b, hs, ht, hm⟩ := h
  cases a with
  | nil =>
    injection hs with h1 h2
    exact Or.inl ⟨h1, t, b, h2, ht, hm⟩
  | cons x a =>
    rw [List.cons_append] at hs
    injection hs with h1 h2
    exact Or.inr ⟨a, t, b, h2, ht, hm⟩

theorem stripTags_not_hasTag_aux :
    ∀ (n : Nat) (s : List Char), s.length ≤ n → ¬ HasTag (stripTags s) := by
  intro n
  induction n with
  | zero =>
    intro s hlen
    cases s with
    | nil => rw [stripTags_nil]; exact not_hasTag_nil
    | cons c rest => simp at hlen
  | succ n ih =>
    intro s hlen
    cases s with
    | nil => rw [stripTags_nil]; exact not_hasTag_nil
    | cons c rest =>
      have hrest : rest.length ≤ n := by
        simp only [List.length_cons] at hlen; omega
      rw [stripTags_cons]
      by_cases hc : c = '<'
      · rw [if_pos hc]
        by_cases hcond : (!(rest.takeWhile (fun d => d ≠ '>')).isEmpty
            && !(rest.dropWhile (fun d => d ≠ '>')).isEmpty) = true
        · rw [if_pos hcond]
          have h1 : (rest.dropWhile (fun d => d ≠ '>')).length ≤ rest.length :=
            (List.dropWhile_sublist _).length_le
          have h2 : ((rest.dropWhile (fun d => d ≠ '>')).tail).length
              ≤ (rest.dropWhile (fun d => d ≠ '>')).length := by
            cases rest.dropWhile (fun d => d ≠ '>') <;> simp
          exact ih _ (by omega)
        · rw [if_neg hcond]
          intro h
          rcases hasTag_cons_elim h with ⟨_, t, b, hsplit, ht, hm⟩ | h2
          · -- the output of the recursive call would exhibit a tag after '<',
            -- contradicting the failed match condition on `rest`
            have hcases : (rest.takeWhile (fun d => d ≠ '>')).isEmpty = true
                ∨ (rest.dropWhile (fun d => d ≠ '>')).isEmpty = true := by
              cases hA : (rest.takeWhile (fun d => d ≠ '>')).isEmpty with
              | true => exact Or.inl rfl
              | false =>
                cases hB : (rest.dropWhile (fun d => d ≠ '>')).isEmpty with
                | true => exact Or.inr rfl
                | false => exact absurd (by rw [hA, hB]; rfl) hcond
            by_cases hdw : (rest.dropWhile (fun d => d ≠ '>')).isEmpty = true
            · -- no '>' in rest at all, but the tag provides one in stripTags rest
              have hgt : '>' ∈ stripTags rest := by
                rw [hsplit]
                exact List.mem_append.mpr (Or.inr (List.mem_cons_self _ _))
              have hgt2 : '>' ∈ rest := mem_stripTags hgt
              have : ∀ x ∈ rest, x ≠ '>' := by
                intro x hx
                have := List.dropWhile_eq_nil_iff.mp (List.isEmpty_iff.mp hdw) x hx
                simpa using this
              exact absurd rfl (this '>' hgt2)
            · -- then the non-'>' prefix of rest is empty: rest starts with '>'
              have htw : (rest.takeWhile (fun d => d ≠ '>')).isEmpty = true := by
                rcases hcases with h | h
                · exact h
                · exact absurd h hdw
              cases rest with
              | nil =>
                rw [stripTags_nil] at hsplit
                exact absurd hsplit.symm (by simp [ht])
              | cons r0 r2 =>
                have hr0 : r0 = '>' := by
                  by_contra hne
                  rw [List.takeWhile_cons_of_pos (by simpa using hne)] at htw
                  simp at htw
                have : stripTags (r0 :: r2) = r0 :: stripTags r2 := by
                  rw [stripTags_cons, if_neg (by rw [hr0]; decide)]
                rw [this, hr0] at hsplit
                cases t with
                | nil => exact ht rfl
                | cons t0 t1 =>
                  injection hsplit with h1 h2
                  exact hm (by rw [← h1]; exact List.mem_cons_self _ _)
          · exact ih _ hrest h2
      · rw [if_neg hc]
        intro h
        rcases hasTag_cons_elim h with ⟨hceq, _⟩ | h2
        · exact hc hceq
        · exact ih _ hrest h2

theorem stripTags_not_hasTag (s : List Char) : ¬ HasTag (stripTags s) :=
  stripTags_not_hasTag_aux s.length s le_rfl


theorem mem_takeWhile_ne {x : Char} {l : List Char}
    (h : x ∈ l.takeWhile (fun d => d ≠ '>')) : x ≠ '>' := by
  have := List.mem_takeWhile_imp h
  simpa using this

theorem stripTags_eq_self_aux :
    ∀ (n : Nat) (s : List Char), s.length ≤ n → ¬ HasTag s → stripTags s = s := by
  intro n
  induction n with
  | zero =>
    intro s hlen _
    cases s with
    | nil => rfl
    | cons c rest => simp at hlen
  | succ n ih =>
    intro s hlen hno
    cases s with
    | nil => rfl
    | cons c rest =>
      have hrest : rest.length ≤ n := by
        simp only [List.length_cons] at hlen; omega
      have hno_rest : ¬ HasTag rest := fun h => hno (hasTag_cons c h)
      rw [stripTags_cons]
      by_cases hc : c = '<'
      · rw [if_pos hc]
        have hcond : (!(rest.takeWhile (fun d => d ≠ '>')).isEmpty
            && !(rest.dropWhile (fun d => d ≠ '>')).isEmpty) = false := by
          by_contra hcond
          rw [Bool.not_eq_false, Bool.and_eq_true] at hcond
          obtain ⟨h1, h2⟩ := hcond
          rw [Bool.not_eq_true', List.isEmpty_eq_false_iff_exists_mem] at h1
          rw [Bool.not_eq_true'] at h2
          cases hd : rest.dropWhile (fun d => d ≠ '>') with
          | nil => rw [hd] at h2; simp at h2
          | cons d0 d2 =>
            have hd0 : d0 = '>' := by
              by_contra hne
              have := List.head?_dropWhile_not (p := fun d => d ≠ '>') rest
              rw [hd] at this
              simp at this
              exact hne this
            apply hno
            refine ⟨[], rest.takeWhile (fun d => d ≠ '>'), d2, ?_, ?_, ?_⟩
            · have heq : rest = rest.takeWhile (fun d => d ≠ '>')
                  ++ rest.dropWhile (fun d => d ≠ '>') :=
                (List.takeWhile_append_dropWhile _ _).symm
              rw [hc]
              simp only [List.nil_append]
              congr 1
              conv_lhs => rw [heq]
              rw [hd, hd0]
            · obtain ⟨x, hx⟩ := h1
              intro hnil
              rw [hnil] at hx
              simp at hx
            · intro hmem
              exact absurd rfl (mem_takeWhile_ne hmem)
        rw [hcond]
        simp only [Bool.false_eq_true, if_false]
        rw [ih _ hrest hno_rest]
      · rw [if_neg hc]
        rw [ih _ hrest hno_rest]

theorem stripTags_eq_self {s : List Char} (h : ¬ HasTag s) : stripTags s = s :=
  stripTags_eq_self_aux s.length s le_rfl h


theorem collapseWsAux_eq_drop (l : List Char) :
    ∀ k, collapseWsAux k l = collapseWs (l.drop k) := by
  induction l with
  | nil => intro k; cases k <;> rfl
  | cons c rest ih =>
    intro k
    cases k with
    | zero => rfl
    | succ j =>
      show collapseWsAux j rest = _
      rw [ih j]
      rfl

theorem collapseWs_nil : collapseWs [] = [] := rfl

theorem collapseWs_cons (c : Char) (rest : List Char) :
    collapseWs (c :: rest)
      = if isWsChar c then ' ' :: collapseWs (rest.dropWhile isWsChar)
        else c :: collapseWs rest := by
  show collapseWsAux 0 (c :: rest) = _
  unfold collapseWsAux
  by_cases h : isWsChar c
  · rw [if_pos h, if_pos h, collapseWsAux_eq_drop, ← dropWhile_eq_drop_takeWhile]
  · rw [if_neg h, if_neg h]
    rfl

/-- Helper: a decomposition of collapsed text at a `'>'` pulls back to
a decomposition of the original text whose prefix is `'>'`-free
whenever the collapsed prefix is (whitespace characters are never
`'>'`), and non-empty whenever the collapsed prefix is. -/
theorem collapseWs_decomp_aux :
    ∀ (n : Nat) (z : List Char), z.length ≤ n →
      ∀ t b, collapseWs z = t ++ '>' :: b → '>' ∉ t →
      ∃ t' b', z = t' ++ '>' :: b' ∧ '>' ∉ t' ∧ (t ≠ [] → t' ≠ []) := by
  intro n
  induction n with
  | zero =>
    intro z hlen t b hsplit hmem
    cases z with
    | nil => rw [collapseWs_nil] at hsplit; exact absurd hsplit.symm (by simp)
    | cons c rest => simp at hlen
  | succ n ih =>
    intro z hlen t b hsplit hmem
    cases z with
    | nil => rw [collapseWs_nil] at hsplit; exact absurd hsplit.symm (by simp)
    | cons c rest =>
      have hrest : rest.length ≤ n := by
        simp only [List.length_cons] at hlen; omega
      rw [collapseWs_cons] at hsplit
      by_cases hws : isWsChar c
      · rw [if_pos hws] at hsplit
        cases t with
        | nil =>
          -- then ' ' = '>', impossible
          rw [List.nil_append] at hsplit
          injection hsplit with h1 h2
          exact absurd h1 (by decide)
        | cons t0 t1 =>
          rw [List.cons_append] at hsplit
          injection hsplit with h1 h2
          have hdlen : (rest.dropWhile isWsChar).length ≤ n :=
            le_trans (List.dropWhile_sublist _).length_le hrest
          have hmem1 : '>' ∉ t1 := fun hx => hmem (List.mem_cons_of_mem _ hx)
          obtain ⟨t', b', hz, hm', _⟩ := ih _ hdlen t1 b h2 hmem1
          refine ⟨c :: (rest.takeWhile isWsChar ++ t'), b', ?_, ?_, ?_⟩
          · rw [List.cons_append, List.append_assoc, ← hz,
              List.takeWhile_append_dropWhile]
          · intro hx
            rcases List.mem_cons.mp hx with hx | hx
            · rw [← hx] at hws
              exact absurd hws (by decide)
            · rcases List.mem_append.mp hx with hx | hx
              · exact absurd (List.mem_takeWhile_imp hx) (by decide)
              · exact hm' hx
          · intro _; simp
      · rw [if_neg hws] at hsplit
        cases t with
        | nil =>
          rw [List.nil_append] at hsplit
          injection hsplit with h1 h2
          exact ⟨[], rest, by rw [h1]; simp, by simp, by simp⟩
        | cons t0 t1 =>
          rw [List.cons_append] at hsplit
          injection hsplit with h1 h2
          have hmem1 : '>' ∉ t1 := fun hx => hmem (List.mem_cons_of_mem _ hx)
          obtain ⟨t', b', hz, hm', _⟩ := ih _ hrest t1 b h2 hmem1
          refine ⟨c :: t', b', by rw [List.cons_append, hz], ?_, by intro _; simp⟩
          intro hx
          rcases List.mem_cons.mp hx with hx | hx
          · apply hmem
            rw [← h1, hx]
            exact List.mem_cons_self _ _
          · exact hm' hx


theorem collapseWs_hasTag_aux :
    ∀ (n : Nat) (z : List Char), z.length ≤ n → HasTag (collapseWs z) → HasTag z := by
  intro n
  induction n with
  | zero =>
    intro z hlen h
    cases z with
    | nil => rw [collapseWs_nil] at h; exact absurd h not_hasTag_nil
    | cons c rest => simp at hlen
  | succ n ih =>
    intro z hlen h
    cases z with
    | nil => rw [collapseWs_nil] at h; exact absurd h not_hasTag_nil
    | cons c rest =>
      have hrest : rest.length ≤ n := by
        simp only [List.length_cons] at hlen; omega
      rw [collapseWs_cons] at h
      by_cases hws : isWsChar c
      · rw [if_pos hws] at h
        rcases hasTag_cons_elim h with ⟨hlt, _⟩ | h2
        · exact absurd hlt (by decide)
        · have hdlen : (rest.dropWhile isWsChar).length ≤ n :=
            le_trans (List.dropWhile_sublist _).length_le hrest
          have htag : HasTag (rest.dropWhile isWsChar) := ih _ hdlen h2
          have : HasTag rest := by
            have hsplit := (List.takeWhile_append_dropWhile isWsChar rest).symm
            rw [hsplit]
            exact hasTag_append_left _ htag
          exact hasTag_cons c this
      · rw [if_neg hws] at h
        rcases hasTag_cons_elim h with ⟨hceq, t, b, hsplit, ht, hm⟩ | h2
        · obtain ⟨t', b', hz, hm', hne⟩ :=
            collapseWs_decomp_aux n rest hrest t b hsplit hm
          exact ⟨[], t', b', by rw [hceq, hz]; rfl, hne ht, hm'⟩
        · exact hasTag_cons c (ih _ hrest h2)

theorem collapseWs_hasTag {z : List Char} (h : HasTag (collapseWs z)) : HasTag z :=
  collapseWs_hasTag_aux z.length z le_rfl h



theorem canonWs_tail {c : Char} {rest : List Char} (h : canonWs (c :: rest) = true) :
    canonWs rest = true := by
  unfold canonWs at h
  simp only [Bool.and_eq_true] at h
  exact h.2

theorem canonWs_cons_intro {c : Char} {rest : List Char}
    (h1 : (!isWsChar c || c = ' ') = true)
    (h2 : ∀ d, rest.head? = some d → (isWsChar c && isWsChar d) = false)
    (h3 : canonWs rest = true) : canonWs (c :: rest) = true := by
  unfold canonWs
  simp only [Bool.and_eq_true]
  refine ⟨⟨h1, ?_⟩, h3⟩
  cases rest with
  | nil => rfl
  | cons d rest2 =>
    have := h2 d rfl
    simp [this]

theorem dropWhile_head_not {p : Char → Bool} {l : List Char} {d : Char}
    {l2 : List Char} (h : l.dropWhile p = d :: l2) : p d = false := by
  have := List.head?_dropWhile_not p l
  rw [h] at this
  simpa using this

theorem canonWs_collapseWs_aux :
    ∀ (n : Nat) (s : List Char), s.length ≤ n → canonWs (collapseWs s) = true := by
  intro n
  induction n with
  | zero =>
    intro s hlen
    cases s with
    | nil => rfl
    | cons c rest => simp at hlen
  | succ n ih =>
    intro s hlen
    cases s with
    | nil => rfl
    | cons c rest =>
      have hrest : rest.length ≤ n := by
        simp only [List.length_cons] at hlen; omega
      rw [collapseWs_cons]
      by_cases hws : isWsChar c
      · rw [if_pos hws]
        have hdlen : (rest.dropWhile isWsChar).length ≤ n :=
          le_trans (List.dropWhile_sublist _).length_le hrest
        apply canonWs_cons_intro
        · simp
        · intro d hd
          cases hz : rest.dropWhile isWsChar with
          | nil => rw [hz, collapseWs_nil] at hd; simp at hd
          | cons z0 z2 =>
            have hz0 : isWsChar z0 = false := dropWhile_head_not hz
            rw [hz, collapseWs_cons, if_neg (by simp [hz0])] at hd
            simp only [List.head?_cons, Option.some.injEq] at hd
            rw [← hd, hz0]
            simp
        · exact ih _ hdlen
      · rw [if_neg hws]
        apply canonWs_cons_intro
        · simp [hws]
        · intro d hd
          simp [hws]
        · exact ih _ hrest

theorem collapseWs_eq_self_aux :
    ∀ (n : Nat) (s : List Char), s.length ≤ n → canonWs s = true → collapseWs s = s := by
  intro n
  induction n with
  | zero =>
    intro s hlen _
    cases s with
    | nil => rfl
    | cons c rest => simp at hlen
  | succ n ih =>
    intro s hlen hcanon
    cases s with
    | nil => rfl
    | cons c rest =>
      have hrest : rest.length ≤ n := by
        simp only [List.length_cons] at hlen; omega
      rw [collapseWs_cons]
      by_cases hws : isWsChar c
      · rw [if_pos hws]
        unfold canonWs at hcanon
        simp only [Bool.and_eq_true] at hcanon
        have hc : c = ' ' := by
          rcases Bool.or_eq_true_iff.mp hcanon.1.1 with h | h
          · rw [hws] at h; simp at h
          · simpa using h
        have hdrop : rest.dropWhile isWsChar = rest := by
          cases rest with
          | nil => rfl
          | cons d rest2 =>
            have := hcanon.1.2
            rw [hws] at this
            simp only [Bool.true_and] at this
            have hd : isWsChar d = false := by
              cases hdw : isWsChar d
              · rfl
              · rw [hdw] at this; simp at this
            rw [List.dropWhile_cons_of_neg (by simp [hd])]
        rw [hdrop, hc, ih _ hrest hcanon.2]
      · rw [if_neg hws]
        rw [ih _ hrest (canonWs_tail hcanon)]


theorem dropTrailWs_prefix (l : List Char) : ∃ u, l = dropTrailWs l ++ u := by
  induction l with
  | nil => exact ⟨[], rfl⟩
  | cons c rest ih =>
    obtain ⟨u, hu⟩ := ih
    unfold dropTrailWs
    by_cases h : (dropTrailWs rest).isEmpty && isWsChar c
    · rw [if_pos h]
      exact ⟨c :: rest, rfl⟩
    · rw [if_neg h]
      exact ⟨u, by rw [List.cons_append, ← hu]⟩

theorem dropTrailWs_head (c : Char) (rest : List Char) :
    dropTrailWs (c :: rest) = [] ∨ ∃ r, dropTrailWs (c :: rest) = c :: r := by
  unfold dropTrailWs
  by_cases h : (dropTrailWs rest).isEmpty && isWsChar c
  · rw [if_pos h]; exact Or.inl rfl
  · rw [if_neg h]; exact Or.inr ⟨dropTrailWs rest, rfl⟩

theorem canonWs_dropWhile {p : Char → Bool} {l : List Char} (h : canonWs l = true) :
    canonWs (l.dropWhile p) = true := by
  induction l with
  | nil => exact h
  | cons c rest ih =>
    by_cases hp : p c
    · rw [List.dropWhile_cons_of_pos hp]
      exact ih (canonWs_tail h)
    · rw [List.dropWhile_cons_of_neg hp]
      exact h

theorem canonWs_dropTrailWs {l : List Char} (h : canonWs l = true) :
    canonWs (dropTrailWs l) = true := by
  induction l with
  | nil => exact h
  | cons c rest ih =>
    unfold dropTrailWs
    by_cases hcond : (dropTrailWs rest).isEmpty && isWsChar c
    · rw [if_pos hcond]; rfl
    · rw [if_neg hcond]
      apply canonWs_cons_intro
      · unfold canonWs at h
        simp only [Bool.and_eq_true] at h
        exact h.1.1
      · intro d hd
        cases rest with
        | nil => simp [dropTrailWs] at hd
        | cons r0 r2 =>
          rcases dropTrailWs_head r0 r2 with hh | ⟨r, hh⟩
          · rw [hh] at hd; simp at hd
          · rw [hh] at hd
            simp only [List.head?_cons, Option.some.injEq] at hd
            unfold canonWs at h
            simp only [Bool.and_eq_true] at h
            rw [← hd]
            cases hcc : isWsChar c
            · simp
            · have := h.1.2
              rw [hcc] at this
              simp only [Bool.true_and] at this
              simpa using this
      · exact ih (canonWs_tail h)

theorem dropTrailWs_cons (c : Char) (rest : List Char) :
    dropTrailWs (c :: rest)
      = if (dropTrailWs rest).isEmpty && isWsChar c then [] else c :: dropTrailWs rest :=
  rfl

theorem dropTrailWs_idem (l : List Char) : dropTrailWs (dropTrailWs l) = dropTrailWs l := by
  induction l with
  | nil => rfl
  | cons c rest ih =>
    rw [dropTrailWs_cons c rest]
    by_cases hcond : ((dropTrailWs rest).isEmpty && isWsChar c) = true
    · rw [if_pos hcond]; rfl
    · rw [if_neg hcond, dropTrailWs_cons c (dropTrailWs rest), ih, if_neg hcond]

theorem dropWhile_eq_self_of_head {p : Char → Bool} {l : List Char}
    (h : ∀ c rest, l = c :: rest → p c = false) : l.dropWhile p = l := by
  cases l with
  | nil => rfl
  | cons c rest =>
    rw [List.dropWhile_cons_of_neg (by simp [h c rest rfl])]


theorem removeScriptsAux_eq_drop (l : List Char) :
    ∀ k, removeScriptsAux k l = removeScripts (l.drop k) := by
  induction l with
  | nil => intro k; cases k <;> rfl
  | cons c rest ih =>
    intro k
    cases k with
    | zero => rfl
    | succ j =>
      show removeScriptsAux j rest = _
      rw [ih j]
      rfl

theorem removeScripts_nil : removeScripts [] = [] := rfl

theorem removeScripts_cons (c : Char) (rest : List Char) :
    removeScripts (c :: rest)
      = if isScriptOpen (c :: rest) then
          (match findCloseIdx ((c :: rest).drop 7) with
           | some i => removeScripts ((c :: rest).drop (16 + i))
           | none => c :: removeScripts rest)
        else c :: removeScripts rest := by
  show removeScriptsAux 0 (c :: rest) = _
  unfold removeScriptsAux
  by_cases h : isScriptOpen (c :: rest)
  · rw [if_pos h, if_pos h]
    cases hf : findCloseIdx ((c :: rest).drop 7) with
    | none => rfl
    | some i =>
      simp only
      rw [removeScriptsAux_eq_drop]
      congr 1
      show rest.drop (15 + i) = (c :: rest).drop (16 + i)
      have : (16 + i) = (15 + i) + 1 := by omega
      rw [this]
      rfl
  · rw [if_neg h, if_neg h]
    rfl


theorem isScriptClose_hasTag : ∀ {l : List Char}, isScriptClose l = true → HasTag l := by
  intro l h
  rcases l with _ | ⟨c0, _ | ⟨cs, _ | ⟨c1, _ | ⟨c2, _ | ⟨c3, _ | ⟨c4, _ | ⟨c5, _ | ⟨c6, _ | ⟨c8, r⟩⟩⟩⟩⟩⟩⟩⟩⟩
  all_goals simp [isScriptClose] at h
  obtain ⟨⟨⟨⟨⟨⟨⟨⟨h0, hs⟩, h1⟩, h2⟩, h3⟩, h4⟩, h5⟩, h6⟩, h8⟩ := h
  refine ⟨[], [cs, c1, c2, c3, c4, c5, c6], r, ?_, by simp, ?_⟩
  · rw [h0, h8]
    rfl
  · intro hx
    simp only [List.mem_cons, List.not_mem_nil, or_false] at hx
    rcases hx with hx | hx | hx | hx | hx | hx | hx
    · rw [← hx] at hs; simp at hs
    · rcases h1 with h | h <;> rw [← hx] at h <;> simp at h
    · rcases h2 with h | h <;> rw [← hx] at h <;> simp at h
    · rcases h3 with h | h <;> rw [← hx] at h <;> simp at h
    · rcases h4 with h | h <;> rw [← hx] at h <;> simp at h
    · rcases h5 with h | h <;> rw [← hx] at h <;> simp at h
    · rcases h6 with h | h <;> rw [← hx] at h <;> simp at h

theorem findCloseIdx_some_hasTag :
    ∀ {l : List Char} {i : Nat}, findCloseIdx l = some i → HasTag l := by
  intro l
  induction l with
  | nil => intro i h; simp [findCloseIdx] at h
  | cons c rest ih =>
    intro i h
    unfold findCloseIdx at h
    by_cases hclose : isScriptClose (c :: rest) = true
    · exact isScriptClose_hasTag hclose
    · rw [if_neg hclose] at h
      cases hf : findCloseIdx rest with
      | none => rw [hf] at h; simp at h
      | some j => exact hasTag_cons c (ih hf)

theorem removeScripts_eq_self_aux :
    ∀ (n : Nat) (s : List Char), s.length ≤ n → ¬ HasTag s → removeScripts s = s := by
  intro n
  induction n with
  | zero =>
    intro s hlen _
    cases s with
    | nil => rfl
    | cons c rest => simp at hlen
  | succ n ih =>
    intro s hlen hno
    cases s with
    | nil => rfl
    | cons c rest =>
      have hrest : rest.length ≤ n := by
        simp only [List.length_cons] at hlen; omega
      have hno_rest : ¬ HasTag rest := fun h => hno (hasTag_cons c h)
      rw [removeScripts_cons]
      by_cases hopen : isScriptOpen (c :: rest) = true
      · rw [if_pos hopen]
        cases hf : findCloseIdx ((c :: rest).drop 7) with
        | some i =>
          exfalso
          apply hno
          have htag : HasTag ((c :: rest).drop 7) := findCloseIdx_some_hasTag hf
          have : c :: rest = (c :: rest).take 7 ++ (c :: rest).drop 7 :=
            (List.take_append_drop _ _).symm
          rw [this]
          exact hasTag_append_left _ htag
        | none =>
          rw [ih _ hrest hno_rest]
      · rw [if_neg hopen]
        rw [ih _ hrest hno_rest]

theorem removeScripts_eq_self {s : List Char} (h : ¬ HasTag s) : removeScripts s = s :=
  removeScripts_eq_self_aux s.length s le_rfl h


theorem jsTrim_def (l : List Char) :
    jsTrim l = dropTrailWs (l.dropWhile isWsChar) := rfl

/-- C9: `sanitizeComment` is idempotent: sanitizing already-sanitized
content changes nothing. -/
theorem sanitizeComment_idempotent (s : String) :
    sanitizeComment (sanitizeComment s) = sanitizeComment s := by
  unfold sanitizeComment
  have hdata : ∀ l : List Char, (String.mk l).data = l := fun _ => rfl
  rw [hdata]
  set x3 := collapseWs (stripTags (removeScripts s.data)) with hx3
  set y := jsTrim x3 with hy
  have hT2 : ¬ HasTag (stripTags (removeScripts s.data)) := stripTags_not_hasTag _
  have hT3 : ¬ HasTag x3 := fun h => hT2 (collapseWs_hasTag h)
  have hTy : ¬ HasTag y := by
    intro h
    apply hT3
    rw [hy, jsTrim_def] at h
    obtain ⟨u, hu⟩ := dropTrailWs_prefix (x3.dropWhile isWsChar)
    have h2 : HasTag (x3.dropWhile isWsChar) := by
      rw [hu]
      exact hasTag_append_right u h
    rw [← List.takeWhile_append_dropWhile isWsChar x3]
    exact hasTag_append_left _ h2
  have h_rs : removeScripts y = y := removeScripts_eq_self hTy
  have h_st : stripTags y = y := stripTags_eq_self hTy
  have hCan3 : canonWs x3 = true := canonWs_collapseWs_aux _ _ le_rfl
  have hCany : canonWs y = true := by
    rw [hy, jsTrim_def]
    exact canonWs_dropTrailWs (canonWs_dropWhile hCan3)
  have h_col : collapseWs y = y := collapseWs_eq_self_aux y.length y le_rfl hCany
  have h_dw : y.dropWhile isWsChar = y := by
    apply dropWhile_eq_self_of_head
    intro c rest hc
    rw [hy, jsTrim_def] at hc
    cases hv : x3.dropWhile isWsChar with
    | nil => rw [hv] at hc; simp [dropTrailWs] at hc
    | cons d v2 =>
      rw [hv] at hc
      rcases dropTrailWs_head d v2 with hh | ⟨r, hh⟩
      · rw [hh] at hc; simp at hc
      · rw [hh] at hc
        injection hc with hcd _
        rw [← hcd]
        exact dropWhile_head_not hv
  have h_dtw : dropTrailWs y = y := by
    rw [hy, jsTrim_def]
    exact dropTrailWs_idem _
  rw [h_rs, h_st, h_col, jsTrim_def, h_dw, h_dtw]

end BlogCMS
